import Mathlib

/-!
Verification development for the energy-controller repository.

Shallow embedding conventions:
* timestamps (`datetime` values) are modelled as integer minutes since an
  arbitrary epoch, always as absolute (UTC) instants; the local timezone is
  an explicit minute-offset parameter `tz` where the code consults local time;
* prices (`float`) are modelled as rationals;
* Python lists become `List`, Python `set` objects become `Finset ℕ`;
* the unbounded `while` loop of the advanced optimiser is modelled with an
  explicit fuel parameter, `none` standing for non-termination.
-/

namespace EnergyController

/-- Rate record from `src/rates/types.py` / `src/rate_data.py`:
a single half-hourly unit rate, times in minutes since epoch (UTC instant). -/
structure Rate where
  value_exc_vat : ℚ
  value_inc_vat : ℚ
  valid_from : ℤ
  valid_to : ℤ
  deriving DecidableEq, Repr

/-- Ordering used by every `sorted(data, key=lambda r: r.valid_from)` call. -/
def rateLe (a b : Rate) : Prop := a.valid_from ≤ b.valid_from

instance : DecidableRel rateLe := fun a b => inferInstanceAs (Decidable (a.valid_from ≤ b.valid_from))

instance : IsTotal Rate rateLe := ⟨fun a b => Int.le_total a.valid_from b.valid_from⟩

instance : IsTrans Rate rateLe := ⟨fun _ _ _ h1 h2 => le_trans h1 h2⟩

/-- Python `list.sort(key=lambda r: r.valid_from)` (a stable comparison sort). -/
def sortRates (l : List Rate) : List Rate := List.insertionSort rateLe l

/-! ### merge_price_data (src/octopus_api.py) -/

/-- Filter step of `merge_price_data`: keep existing prices with
`price.valid_from >= now - timedelta(hours=48)` (48 h = 2880 minutes). -/
def filterExisting (now : ℤ) (existing : List Rate) : List Rate :=
  existing.filter (fun price => decide (now - 2880 ≤ price.valid_from))

/-- De-duplication loop of `merge_price_data`: first occurrence of each
`valid_from` key is kept, later ones are dropped (`seen_times` set). -/
def dedupByValidFrom (seen : List ℤ) : List Rate → List Rate
  | [] => []
  | price :: rest =>
    if price.valid_from ∈ seen then dedupByValidFrom seen rest
    else price :: dedupByValidFrom (price.valid_from :: seen) rest

/-- `merge_price_data(existing_prices, new_prices)` from `src/octopus_api.py`,
with `datetime.now(LOCAL_TZ)` passed in explicitly as `now`. -/
def merge_price_data (now : ℤ) (existing_prices new_prices : List Rate) : List Rate :=
  sortRates (dedupByValidFrom [] (filterExisting now existing_prices ++ new_prices))

/-- Modelled from the spec: `windowStart` is "local midnight of `now.date - 1 day`".
`tz` is the local-time offset in minutes; the result is a UTC instant. -/
def windowStartSpec (tz now : ℤ) : ℤ := (((now + tz).fdiv 1440) - 1) * 1440 - tz

/-- Modelled from the spec: the trim "keeps any slot whose `validTo > windowStart`". -/
def specTrimKeep (tz now : ℤ) (r : Rate) : Bool := decide (windowStartSpec tz now < r.valid_to)

/-! ### Shared optimiser pieces -/

/-- Hour (0..23) of a UTC instant, as read by `t.hour` after
`astimezone(timezone.utc)` in the simple greedy optimiser. -/
def utcHour (t : ℤ) : ℤ := (t % 1440) / 60

/-- Hour (0..23) of an instant converted to the local zone, as read by
`t.astimezone().hour` in the advanced predictive optimiser. -/
def localHour (tz t : ℤ) : ℤ := ((t + tz) % 1440) / 60

/-- Membership test of an hour in the configured comfort windows:
`start <= h < end` for some `(start, end)` pair. -/
def hourInWindows (comfort_hours : List (ℤ × ℤ)) (h : ℤ) : Bool :=
  comfort_hours.any (fun se => decide (se.1 ≤ h) && decide (h < se.2))

/-- Optimiser tuning parameters (`OptimisationParams` in `src/optimiser/types.py`). -/
structure Params where
  comfort_hours : List (ℤ × ℤ)
  preheat_slots : ℕ
  retain_slots : ℕ
  slot_duration_hours : ℚ
  power_kw : ℚ
  deriving DecidableEq, Repr

/-- One entry of the internal `full_schedule` list built by both strategies. -/
structure ScheduleSlot where
  time : ℤ
  «on» : Bool
  warm : Bool
  price : ℚ
  cost : ℚ
  deriving DecidableEq, Repr

/-- One emitted ON/OFF transition. -/
structure Transition where
  time : ℤ
  «on» : Bool
  price : ℚ
  deriving DecidableEq, Repr

/-- The summary dictionary produced by both strategies. -/
structure Summary where
  total_slots : ℕ
  on_slots : ℕ
  on_hours : ℚ
  total_cost : ℚ
  average_on_price : Option ℚ
  comfort_slots : ℕ
  warm_comfort_slots : ℕ
  deriving DecidableEq, Repr

/-- The optimiser result: transitions plus a summary.  The advanced strategy
returns a bare `{}` summary on empty input, modelled as `none`. -/
structure Schedule where
  transitions : List Transition
  summary : Option Summary
  deriving DecidableEq, Repr

/-- Python `round(x, 3)` (round half to even, reals standing in for floats). -/
def roundHalfEven (q : ℚ) : ℤ :=
  if q - ⌊q⌋ < 1/2 then ⌊q⌋
  else if 1/2 < q - ⌊q⌋ then ⌊q⌋ + 1
  else if ⌊q⌋ % 2 = 0 then ⌊q⌋ else ⌊q⌋ + 1

/-- Round a rational to three decimal places, as `round(x, 3)` does. -/
def round3 (q : ℚ) : ℚ := (roundHalfEven (q * 1000) : ℚ) / 1000

/-- Python `min(l, default=d)`. -/
def listMinD (d : ℚ) : List ℚ → ℚ
  | [] => d
  | [x] => x
  | x :: y :: rest => min x (listMinD d (y :: rest))

/-- Transition extraction shared by both strategies: emit whenever
`s["on"] != last_state`, with `last_state` starting as `None`. -/
def extractTransitions (last : Option Bool) : List ScheduleSlot → List Transition
  | [] => []
  | s :: rest =>
    if some s.on = last then extractTransitions last rest
    else ⟨s.time, s.on, s.price⟩ :: extractTransitions (some s.on) rest

/-- Emit a transition exactly when a slot differs from the immediately
preceding slot, the state before the first slot being `prev`.  With
`prev = some false` this is the spec sentence "starting from an implicit OFF
state before the series begins". -/
def emitOnChangeFrom (prev : Option Bool) : List ScheduleSlot → List Transition
  | [] => []
  | s :: rest =>
    if some s.on = prev then emitOnChangeFrom (some s.on) rest
    else ⟨s.time, s.on, s.price⟩ :: emitOnChangeFrom (some s.on) rest

/-- Replay a transition list over the slot times, reconstructing the per-slot
ON/OFF sequence (state is OFF before the first transition applies). -/
def replayOnSeq (state : Bool) : List Transition → List ℤ → List Bool
  | _, [] => []
  | [], _ :: rest => state :: replayOnSeq state [] rest
  | tr :: trs, t :: rest =>
    if tr.time = t then tr.on :: replayOnSeq tr.on trs rest
    else state :: replayOnSeq state (tr :: trs) rest

/-! ### Simple greedy optimiser (src/optimiser/simple_greedy_optimiser.py) -/

/-- The per-slot ON decision of the greedy strategy, returning the decided
`on` flag together with the updated `warm_remaining`. -/
def greedyDecide (times : List ℤ) (prices : List ℚ) (p : Params) (i : ℕ) (wr : ℕ) :
    Bool × ℕ :=
  let n := times.length
  let price := prices.getD i 0
  let is_comfort := hourInWindows p.comfort_hours (utcHour (times.getD i 0))
  if price < 0 then (true, p.retain_slots)
  else if is_comfort then
    (if wr = 0 then (true, p.retain_slots) else (false, wr))
  else
    let upcoming := (List.range p.preheat_slots).filterMap
      (fun j => if i + j + 1 < n then some (i + j + 1) else none)
    if upcoming.any (fun idx => hourInWindows p.comfort_hours (utcHour (times.getD idx 0)))
        && decide (price ≤ listMinD price (upcoming.map (fun idx => prices.getD idx 0)))
    then (true, p.retain_slots)
    else (false, wr)

/-- The forward pass of the greedy strategy: walk the slot indices carrying
`warm_remaining`, building the `full_schedule` list. -/
def greedyBuild (times : List ℤ) (prices : List ℚ) (p : Params) :
    List ℕ → ℕ → List ScheduleSlot
  | [], _ => []
  | i :: rest, wr =>
    let d := greedyDecide times prices p i wr
    let warm := decide (0 < d.2)
    let price := prices.getD i 0
    let cost := price * p.power_kw * p.slot_duration_hours / 100
    ⟨times.getD i 0, d.1, warm, price, cost⟩ :: greedyBuild times prices p rest (d.2 - 1)

/-- The internal `full_schedule` list of the greedy strategy. -/
def greedyFullSchedule (data : List Rate) (p : Params) : List ScheduleSlot :=
  let ds := sortRates data
  greedyBuild (ds.map Rate.valid_from) (ds.map Rate.value_inc_vat) p
    (List.range ds.length) 0

/-- Default slot used only to express Python indexing that is always in range. -/
def defaultSlot : ScheduleSlot := ⟨0, false, false, 0, 0⟩

/-- Summary computation shared in shape by both strategies, with the comfort
classification passed in as a per-index predicate. -/
def mkSummary (p : Params) (n : ℕ) (comfortIdx : ℕ → Bool) (on_slots : ℕ)
    (total_cost : ℚ) (slots : List ScheduleSlot) : Summary :=
  { total_slots := n
    on_slots := on_slots
    on_hours := (on_slots : ℚ) * p.slot_duration_hours
    total_cost := round3 total_cost
    average_on_price :=
      if on_slots = 0 then none
      else some (round3 (((slots.filter (fun s => s.on)).map ScheduleSlot.price).sum / (on_slots : ℚ)))
    comfort_slots := (List.range n).countP comfortIdx
    warm_comfort_slots :=
      (List.range n).countP (fun i => comfortIdx i && (slots.getD i defaultSlot).warm) }

/-- `optimize_heating_schedule` from `src/optimiser/simple_greedy_optimiser.py`. -/
def simple_greedy_optimise (data : List Rate) (p : Params) : Schedule :=
  let ds := sortRates data
  let times := ds.map Rate.valid_from
  let n := ds.length
  let slots := greedyFullSchedule data p
  let onSlots := slots.countP (fun s => s.on)
  let totalCost := ((slots.filter (fun s => s.on)).map ScheduleSlot.cost).sum
  let comfortIdx := fun i => hourInWindows p.comfort_hours (utcHour (times.getD i 0))
  ⟨extractTransitions none slots, some (mkSummary p n comfortIdx onSlots totalCost slots)⟩

/-! ### Advanced predictive optimiser (src/optimiser/advanced_predictive_optimiser.py) -/

/-- `get_covered_slots`: the indices within range covered by warmth from the
given heating slots, a slot `i` being covered when some ON slot `j` satisfies
`j <= i < j + retain_slots`. -/
def coveredSlots (n retain : ℕ) (onIdx : Finset ℕ) : Finset ℕ :=
  (Finset.range n).filter (fun i => ∃ j ∈ onIdx, j ≤ i ∧ i < j + retain)

/-- Inner scan of the coverage loop: starting from candidate index `best` with
price `bp`, take any strictly cheaper later index (earliest wins on ties). -/
def argminFrom (prices : List ℚ) : List ℕ → ℕ → ℚ → ℕ
  | [], best, _ => best
  | i :: rest, best, bp =>
    if prices.getD i 0 < bp then argminFrom prices rest i (prices.getD i 0)
    else argminFrom prices rest best bp

/-- The `best_heating_slot` search over the window `[ws, we]`: the scan starts
at `float("inf")`, so its first step always takes index `ws`. -/
def bestHeatingSlot (prices : List ℚ) (ws we : ℕ) : ℕ :=
  argminFrom prices (List.range' (ws + 1) (we - ws)) ws (prices.getD ws 0)

/-- The `while uncovered_comfort_slots:` loop, with explicit fuel; `none`
models non-termination.  Each iteration targets the earliest uncovered comfort
slot, marks the cheapest slot of its preheat window ON, and removes the now
covered slots. -/
def advLoop (prices : List ℚ) (n preheat retain : ℕ) :
    ℕ → Finset ℕ → Finset ℕ → Option (Finset ℕ)
  | 0, _, _ => none
  | fuel + 1, onIdx, uncovered =>
    if h : uncovered.Nonempty then
      let t := uncovered.min' h
      let best := bestHeatingSlot prices (t - preheat) t
      let onIdx2 := insert best onIdx
      advLoop prices n preheat retain fuel onIdx2 (uncovered \ coveredSlots n retain onIdx2)
    else some onIdx

/-- The comfort-slot index set of the advanced strategy (local-hour based). -/
def advComfortSet (tz : ℤ) (times : List ℤ) (p : Params) : Finset ℕ :=
  (Finset.range times.length).filter
    (fun i => hourInWindows p.comfort_hours (localHour tz (times.getD i 0)) = true)

/-- Negative-price indices, all switched ON unconditionally in step A. -/
def negPriceSet (prices : List ℚ) : Finset ℕ :=
  (Finset.range prices.length).filter (fun i => prices.getD i 0 < 0)

/-- Phases 1-3 of the advanced strategy on already-sorted data: the final
`on_indices` set, or `none` if the coverage loop does not terminate. -/
def advOnIndices (tz : ℤ) (fuel : ℕ) (ds : List Rate) (p : Params) : Option (Finset ℕ) :=
  let times := ds.map Rate.valid_from
  let prices := ds.map Rate.value_inc_vat
  advLoop prices ds.length p.preheat_slots p.retain_slots fuel
    (negPriceSet prices) (advComfortSet tz times p)

/-- The bookkeeping pass of the advanced strategy: `warm_remaining` threading
with ON decisions read off the finished `on_indices` set. -/
def advBuild (times : List ℤ) (prices : List ℚ) (p : Params) (onIdx : ℕ → Bool) :
    List ℕ → ℕ → List ScheduleSlot
  | [], _ => []
  | i :: rest, wr =>
    let onHere := onIdx i
    let wr1 := if onHere then p.retain_slots else wr
    let price := prices.getD i 0
    let cost := if onHere then price * p.power_kw * p.slot_duration_hours / 100 else 0
    ⟨times.getD i 0, onHere, decide (0 < wr1), price, cost⟩ ::
      advBuild times prices p onIdx rest (wr1 - 1)

/-- The internal `full_schedule` of the advanced strategy together with the
final `on_indices` set, `none` on empty input (handled earlier) or when the
coverage loop does not terminate. -/
def advPipeline (tz : ℤ) (fuel : ℕ) (data : List Rate) (p : Params) :
    Option (Finset ℕ × List ScheduleSlot) :=
  if data.isEmpty then none
  else
    let ds := sortRates data
    let times := ds.map Rate.valid_from
    let prices := ds.map Rate.value_inc_vat
    (advOnIndices tz fuel ds p).map
      (fun onIdx =>
        (onIdx, advBuild times prices p (fun i => decide (i ∈ onIdx)) (List.range ds.length) 0))

/-- `optimize_heating_schedule` from
`src/optimiser/advanced_predictive_optimiser.py`; empty input short-circuits
to empty transitions and a bare `{}` summary. -/
def advanced_predictive_optimise (tz : ℤ) (fuel : ℕ) (data : List Rate) (p : Params) :
    Option Schedule :=
  if data.isEmpty then some ⟨[], none⟩
  else
    let ds := sortRates data
    let times := ds.map Rate.valid_from
    (advPipeline tz fuel data p).map
      (fun pr =>
        let onCount := pr.1.card
        let totalCost := (pr.2.map ScheduleSlot.cost).sum
        let comfortIdx := fun i => hourInWindows p.comfort_hours (localHour tz (times.getD i 0))
        ⟨extractTransitions none pr.2,
          some (mkSummary p ds.length comfortIdx onCount totalCost pr.2)⟩)

/-! ### Auxiliary definitions used by the proofs -/

/-- Keys accumulated by the de-duplication loop after processing a list. -/
def seenPlus (seen : List ℤ) : List Rate → List ℤ
  | [] => seen
  | price :: rest =>
    if price.valid_from ∈ seen then seenPlus seen rest
    else seenPlus (price.valid_from :: seen) rest

/-- Value of `warm_remaining` at entry to slot `k` of the bookkeeping pass of
the advanced strategy. -/
def advWrBefore (onIdx : ℕ → Bool) (retain : ℕ) : ℕ → ℕ
  | 0 => 0
  | k + 1 => (if onIdx k then retain else advWrBefore onIdx retain k) - 1

/-- Closed form of the slot record at index `i` of the advanced bookkeeping pass. -/
def mkAdvSlot (times : List ℤ) (prices : List ℚ) (p : Params) (onIdx : ℕ → Bool)
    (i : ℕ) : ScheduleSlot :=
  let wr1 := if onIdx i then p.retain_slots else advWrBefore onIdx p.retain_slots i
  ⟨times.getD i 0, onIdx i, decide (0 < wr1), prices.getD i 0,
    if onIdx i then prices.getD i 0 * p.power_kw * p.slot_duration_hours / 100 else 0⟩

/-- The advanced strategy's `full_schedule` as a function of the finished
`on_indices` set. -/
def advSlotsFor (data : List Rate) (p : Params) (onIdx : Finset ℕ) : List ScheduleSlot :=
  let ds := sortRates data
  advBuild (ds.map Rate.valid_from) (ds.map Rate.value_inc_vat) p
    (fun i => decide (i ∈ onIdx)) (List.range ds.length) 0

/-! ### Concrete inputs referenced by witnesses and counterexamples -/

/-- Parameters with `retain_slots = 0` (failing input of the coverage loop). -/
def pRetain0 : Params := ⟨[(7, 9)], 2, 0, 1/2, 1⟩

/-- Default-style parameters with `retain_slots = 1`. -/
def pRetain1 : Params := ⟨[(7, 9)], 2, 1, 1/2, 1⟩

/-- A slot starting 07:00 UTC on day zero. -/
def rateAt420 : Rate := ⟨5, 5, 420, 450⟩

/-- A slot starting 06:30 UTC, which is 07:30 local when the offset is +60. -/
def rateAt390 : Rate := ⟨5, 5, 390, 420⟩

/-- A slot starting 03:00 UTC, outside every configured comfort window. -/
def rateAt180 : Rate := ⟨5, 5, 180, 210⟩

/-- A negatively priced slot starting 03:00 UTC. -/
def rateNeg : Rate := ⟨-2, -2, 180, 210⟩

/-- A slot older than 48 h whose `valid_to` still lies after local midnight of
the previous day when `now = 0`. -/
def oldRate : Rate := ⟨1, 1, -3000, -1430⟩

/-- Cached entry at key 0 with price 10. -/
def dupExisting : Rate := ⟨10, 10, 0, 30⟩

/-- Incoming entry at the same key 0 with price 20. -/
def dupIncoming : Rate := ⟨20, 20, 0, 30⟩

/-! ### Sorting lemmas -/

theorem sortRates_perm (l : List Rate) : (sortRates l).Perm l :=
  List.perm_insertionSort rateLe l

theorem sortRates_sorted (l : List Rate) : List.Sorted rateLe (sortRates l) :=
  List.sorted_insertionSort rateLe l

theorem eq_of_perm_sorted_nodup {l₁ l₂ : List Rate} (hp : l₁.Perm l₂)
    (h₁ : List.Sorted rateLe l₁) (h₂ : List.Sorted rateLe l₂)
    (hnd : (l₁.map Rate.valid_from).Nodup) : l₁ = l₂ := by
  refine List.Perm.eq_of_sorted ?_ h₁ h₂ hp
  intro a b ha hb hab hba
  exact List.inj_on_of_nodup_map hnd ha (hp.symm.subset hb) (le_antisymm hab hba)

theorem nodup_keys_of_perm {l₁ l₂ : List Rate} (hp : l₁.Perm l₂)
    (hnd : (l₁.map Rate.valid_from).Nodup) : (l₂.map Rate.valid_from).Nodup :=
  ((hp.map Rate.valid_from).nodup_iff).mp hnd

theorem sortRates_eq_of_perm {l₁ l₂ : List Rate} (hp : l₁.Perm l₂)
    (hnd : (l₁.map Rate.valid_from).Nodup) : sortRates l₁ = sortRates l₂ :=
  eq_of_perm_sorted_nodup
    ((sortRates_perm l₁).trans (hp.trans (sortRates_perm l₂).symm))
    (sortRates_sorted l₁) (sortRates_sorted l₂)
    (nodup_keys_of_perm (sortRates_perm l₁).symm hnd)

theorem sortRates_eq_self {l : List Rate} (hs : List.Sorted rateLe l)
    (hnd : (l.map Rate.valid_from).Nodup) : sortRates l = l :=
  eq_of_perm_sorted_nodup (sortRates_perm l) (sortRates_sorted l) hs
    (nodup_keys_of_perm (sortRates_perm l).symm hnd)

/-! ### Claim C1 -/

/-- Claim C1 (code_bug evidence): merging a cached entry and an incoming entry
sharing the same `valid_from` keeps the EXISTING entry, although the code's
own comment says new data takes precedence and the spec says the incoming
entry wins.  Here the cached entry has price 10, the incoming one price 20,
and the merge (at `now` one hour past the key) returns the cached entry. -/
theorem claim_C1 : merge_price_data 60 [dupExisting] [dupIncoming] = [dupExisting] := by
  decide

/-! ### Claim C2 -/

theorem coveredSlots_retain_zero (n : ℕ) (s : Finset ℕ) : coveredSlots n 0 s = ∅ := by
  ext i
  simp only [coveredSlots, Finset.mem_filter, Finset.mem_range, Finset.not_mem_empty,
    iff_false, not_and]
  rintro _ ⟨j, _, hji, hij⟩
  omega

theorem advLoop_retain_zero (prices : List ℚ) (n preheat : ℕ) :
    ∀ (fuel : ℕ) (onIdx uncovered : Finset ℕ), uncovered.Nonempty →
      advLoop prices n preheat 0 fuel onIdx uncovered = none := by
  intro fuel
  induction fuel with
  | zero => intro onIdx uncovered _; rfl
  | succ fuel ih =>
    intro onIdx uncovered hne
    rw [advLoop, dif_pos hne]
    simp only [coveredSlots_retain_zero, Finset.sdiff_empty]
    exact ih _ _ hne

/-- Claim C2 (code_bug evidence): with `retain_slots = 0` and a single slot
inside the comfort window, the comfort-coverage loop of the advanced strategy
never terminates — the covered set is always empty, so the uncovered set never
shrinks.  In the fuel model the optimiser returns `none` for every fuel,
refuting the claim that the loop finishes within the number of comfort slots
for all `retain_slots >= 0`. -/
theorem claim_C2 : ∀ fuel : ℕ,
    advanced_predictive_optimise 0 fuel [rateAt420] pRetain0 = none := by
  intro fuel
  have h : advOnIndices 0 fuel (sortRates [rateAt420]) pRetain0 = none := by
    apply advLoop_retain_zero
    refine ⟨0, ?_⟩
    decide
  simp only [advanced_predictive_optimise, advPipeline, h, Option.map_none]
  rfl

/-! ### Claim C4 -/

/-- Claim C4 counterexample: at `now = 0` (midnight local, offset 0), the slot
`oldRate` satisfies the spec's trim condition `validTo > windowStart` (its
`valid_to` lies after local midnight of the previous day), yet the code drops
it, because the code keeps only slots with `valid_from >= now - 48h`. -/
theorem claim_C4_counterexample :
    specTrimKeep 0 0 oldRate = true ∧ merge_price_data 0 [oldRate] [] = [] := by
  decide

/-- Claim C4 (amended): the trim step of `merge_price_data` keeps exactly the
existing slots whose `valid_from` is at least `now` minus 48 hours — a fixed
duration window keyed on `valid_from`, not the local-midnight window keyed on
`valid_to` that the spec describes. -/
theorem claim_C4 (now : ℤ) (existing new : List Rate) :
    (∀ r : Rate, r ∈ filterExisting now existing ↔ r ∈ existing ∧ now - 2880 ≤ r.valid_from)
    ∧ merge_price_data now existing new
        = sortRates (dedupByValidFrom [] (filterExisting now existing ++ new)) := by
  constructor
  · intro r
    simp [filterExisting]
  · rfl

/-! ### Claim C8 -/

/-- Claim C8 (confirmed): on an empty input series the greedy strategy returns
empty transitions and an all-zero summary with `average_on_price = none`, and
the advanced strategy returns empty transitions and its bare `{}` summary;
neither is a division error (the embedding is total). -/
theorem claim_C8 (p : Params) (tz : ℤ) (fuel : ℕ) :
    simple_greedy_optimise [] p = ⟨[], some ⟨0, 0, 0, 0, none, 0, 0⟩⟩
    ∧ advanced_predictive_optimise tz fuel [] p = some ⟨[], none⟩ := by
  constructor
  · norm_num [simple_greedy_optimise, greedyFullSchedule, sortRates, List.insertionSort,
      mkSummary, greedyBuild, extractTransitions, round3, roundHalfEven,
      Schedule.mk.injEq, Summary.mk.injEq]
  · rfl

/-! ### Generic index plumbing -/

theorem map_getD_range {α : Type} (l : List α) (d : α) :
    (List.range l.length).map (fun i => l.getD i d) = l := by
  apply List.ext_getElem
  · simp
  · intro n h1 h2
    simp [List.getD, List.getElem?_eq_getElem, h2]

theorem greedyBuild_map_time (times : List ℤ) (prices : List ℚ) (p : Params) :
    ∀ (idxs : List ℕ) (wr : ℕ),
      (greedyBuild times prices p idxs wr).map ScheduleSlot.time
        = idxs.map (fun i => times.getD i 0) := by
  intro idxs
  induction idxs with
  | nil => intro wr; rfl
  | cons i rest ih => intro wr; simp [greedyBuild, ih]

theorem advBuild_map_time (times : List ℤ) (prices : List ℚ) (p : Params) (onIdx : ℕ → Bool) :
    ∀ (idxs : List ℕ) (wr : ℕ),
      (advBuild times prices p onIdx idxs wr).map ScheduleSlot.time
        = idxs.map (fun i => times.getD i 0) := by
  intro idxs
  induction idxs with
  | nil => intro wr; rfl
  | cons i rest ih => intro wr; simp [advBuild, ih]

theorem greedyFullSchedule_map_time (data : List Rate) (p : Params) :
    (greedyFullSchedule data p).map ScheduleSlot.time
      = (sortRates data).map Rate.valid_from := by
  have h := greedyBuild_map_time ((sortRates data).map Rate.valid_from)
    ((sortRates data).map Rate.value_inc_vat) p (List.range (sortRates data).length) 0
  rw [greedyFullSchedule, h]
  have hl : (sortRates data).length = ((sortRates data).map Rate.valid_from).length := by simp
  rw [hl, map_getD_range]

theorem advSlotsFor_map_time (data : List Rate) (p : Params) (onIdx : Finset ℕ) :
    (advSlotsFor data p onIdx).map ScheduleSlot.time
      = (sortRates data).map Rate.valid_from := by
  have h := advBuild_map_time ((sortRates data).map Rate.valid_from)
    ((sortRates data).map Rate.value_inc_vat) p (fun i => decide (i ∈ onIdx))
    (List.range (sortRates data).length) 0
  rw [advSlotsFor, h]
  have hl : (sortRates data).length = ((sortRates data).map Rate.valid_from).length := by simp
  rw [hl, map_getD_range]

theorem sorted_times_strict {data : List Rate} (hnd : (data.map Rate.valid_from).Nodup) :
    ((sortRates data).map Rate.valid_from).Pairwise (· < ·) := by
  have hs : (sortRates data).Pairwise rateLe := sortRates_sorted data
  have hn : ((sortRates data).map Rate.valid_from).Nodup :=
    nodup_keys_of_perm (sortRates_perm data).symm hnd
  rw [List.pairwise_map]
  rw [List.Nodup, List.pairwise_map] at hn
  exact (hs.and hn).imp (fun h => lt_of_le_of_ne h.1 h.2)

/-! ### Transition extraction lemmas -/

theorem extract_eq_emitOnChange :
    ∀ (slots : List ScheduleSlot) (o : Option Bool),
      extractTransitions o slots = emitOnChangeFrom o slots := by
  intro slots
  induction slots with
  | nil => intro o; rfl
  | cons s rest ih =>
    intro o
    by_cases h : some s.on = o
    · subst h
      rw [extractTransitions, if_pos rfl, emitOnChangeFrom, if_pos rfl, ih]
    · rw [extractTransitions, if_neg h, emitOnChangeFrom, if_neg h, ih]

theorem extract_chain_aux :
    ∀ (slots : List ScheduleSlot) (c : Bool),
      List.Chain' (fun a b : Transition => a.on ≠ b.on)
          (extractTransitions (some c) slots)
        ∧ ∀ t : Transition,
            (extractTransitions (some c) slots).head? = some t → t.on ≠ c := by
  intro slots
  induction slots with
  | nil => intro c; exact ⟨List.chain'_nil, fun t h => by cases h⟩
  | cons s rest ih =>
    intro c
    by_cases h : s.on = c
    · rw [extractTransitions, if_pos (by rw [h])]
      exact ih c
    · rw [extractTransitions, if_neg (by simpa using h)]
      refine ⟨List.chain'_cons'.mpr ⟨?_, (ih s.on).1⟩, ?_⟩
      · intro t ht
        exact ((ih s.on).2 t ht).symm
      · intro t ht
        simp only [List.head?_cons, Option.some_inj] at ht
        rw [← ht]
        exact h

theorem extract_chain (slots : List ScheduleSlot) :
    List.Chain' (fun a b : Transition => a.on ≠ b.on) (extractTransitions none slots) := by
  cases slots with
  | nil => exact List.chain'_nil
  | cons s rest =>
    rw [extractTransitions, if_neg (by simp)]
    exact List.chain'_cons'.mpr
      ⟨fun t ht => ((extract_chain_aux rest s.on).2 t ht).symm, (extract_chain_aux rest s.on).1⟩

theorem extract_time_mem :
    ∀ (slots : List ScheduleSlot) (o : Option Bool) (tr : Transition),
      tr ∈ extractTransitions o slots → tr.time ∈ slots.map ScheduleSlot.time := by
  intro slots
  induction slots with
  | nil => intro o tr h; cases h
  | cons s rest ih =>
    intro o tr h
    by_cases hc : some s.on = o
    · rw [extractTransitions, if_pos hc] at h
      exact List.mem_cons_of_mem _ (ih o tr h)
    · rw [extractTransitions, if_neg hc] at h
      rcases List.mem_cons.mp h with h1 | h1
      · rw [h1]
        exact List.mem_cons_self _ _
      · exact List.mem_cons_of_mem _ (ih (some s.on) tr h1)

theorem replay_cons_of_ne (c : Bool) (L : List Transition) (t : ℤ) (ts : List ℤ)
    (h : ∀ tr ∈ L, tr.time ≠ t) :
    replayOnSeq c L (t :: ts) = c :: replayOnSeq c L ts := by
  cases L with
  | nil => rfl
  | cons tr trs =>
    rw [replayOnSeq, if_neg (h tr (List.mem_cons_self _ _))]

theorem replay_extract_aux :
    ∀ (slots : List ScheduleSlot) (c : Bool),
      (slots.map ScheduleSlot.time).Pairwise (· < ·) →
      replayOnSeq c (extractTransitions (some c) slots) (slots.map ScheduleSlot.time)
        = slots.map (fun s => s.on) := by
  intro slots
  induction slots with
  | nil => intro c _; rfl
  | cons s rest ih =>
    intro c hp
    rw [List.map_cons] at hp
    have hhead := List.pairwise_cons.mp hp
    by_cases h : s.on = c
    · rw [extractTransitions, if_pos (by rw [h])]
      rw [List.map_cons, replay_cons_of_ne, List.map_cons, ih c hhead.2, h]
      intro tr htr
      exact ne_of_gt (hhead.1 tr.time (extract_time_mem rest (some c) tr htr))
    · rw [extractTransitions, if_neg (by simpa using h)]
      rw [List.map_cons, replayOnSeq, if_pos rfl, List.map_cons, ih s.on hhead.2]

theorem replay_extract (slots : List ScheduleSlot)
    (hp : (slots.map ScheduleSlot.time).Pairwise (· < ·)) :
    replayOnSeq false (extractTransitions none slots) (slots.map ScheduleSlot.time)
      = slots.map (fun s => s.on) := by
  cases slots with
  | nil => rfl
  | cons s rest =>
    rw [List.map_cons] at hp
    have hhead := List.pairwise_cons.mp hp
    rw [extractTransitions, if_neg (by simp)]
    rw [List.map_cons, replayOnSeq, if_pos rfl, List.map_cons,
      replay_extract_aux rest s.on hhead.2]

/-- Plumbing: with a nonempty input and a terminating coverage loop, the
advanced optimiser's transition list is the extraction over its full schedule. -/
theorem adv_result_transitions (tz : ℤ) (fuel : ℕ) (data : List Rate) (p : Params)
    (onIdx : Finset ℕ) (h : advOnIndices tz fuel (sortRates data) p = some onIdx)
    (hne : data ≠ []) :
    (advanced_predictive_optimise tz fuel data p).map Schedule.transitions
      = some (extractTransitions none (advSlotsFor data p onIdx)) := by
  have he : data.isEmpty = false := by
    cases data with
    | nil => exact absurd rfl hne
    | cons a l => rfl
  simp only [advanced_predictive_optimise, advPipeline, he, Bool.false_eq_true, if_false, h,
    Option.map_map, Option.map_some]
  rfl

/-! ### Claim C7 -/

/-- Claim C7 counterexample: on a single OFF slot the code emits a transition
for the very first slot (its `last_state` starts as `None`, and `False != None`
in Python), whereas the claim's implicit-OFF rule emits nothing.  The slot at
03:00 with positive price is OFF, yet the transitions list is `[(180, off)]`
while the implicit-OFF extraction over the same schedule is empty. -/
theorem claim_C7_counterexample :
    (simple_greedy_optimise [rateAt180] pRetain1).transitions = [⟨180, false, 5⟩]
    ∧ emitOnChangeFrom (some false) (greedyFullSchedule [rateAt180] pRetain1) = [] := by
  decide

/-- Claim C7 (amended): for both strategies the transitions list strictly
alternates in `on`, replaying it over the slot times reconstructs the per-slot
`on` sequence exactly, and a transition is emitted exactly when a slot differs
from the immediately preceding one — but starting from an implicit UNDEFINED
state (`last_state = None`), so the first slot always emits a transition, even
an OFF one; the implicit-OFF form of the claim is what the counterexample
refutes.  The advanced half is conditional on its coverage loop terminating. -/
theorem claim_C7 (data : List Rate) (p : Params)
    (hnd : (data.map Rate.valid_from).Nodup) :
    ((simple_greedy_optimise data p).transitions
        = emitOnChangeFrom none (greedyFullSchedule data p)
      ∧ List.Chain' (fun a b : Transition => a.on ≠ b.on)
          (simple_greedy_optimise data p).transitions
      ∧ replayOnSeq false (simple_greedy_optimise data p).transitions
            ((greedyFullSchedule data p).map ScheduleSlot.time)
          = (greedyFullSchedule data p).map (fun s => s.on))
    ∧ ∀ (tz : ℤ) (fuel : ℕ) (onIdx : Finset ℕ),
        advOnIndices tz fuel (sortRates data) p = some onIdx → data ≠ [] →
        ((advanced_predictive_optimise tz fuel data p).map Schedule.transitions
            = some (extractTransitions none (advSlotsFor data p onIdx))
          ∧ emitOnChangeFrom none (advSlotsFor data p onIdx)
              = extractTransitions none (advSlotsFor data p onIdx)
          ∧ List.Chain' (fun a b : Transition => a.on ≠ b.on)
              (extractTransitions none (advSlotsFor data p onIdx))
          ∧ replayOnSeq false (extractTransitions none (advSlotsFor data p onIdx))
                ((advSlotsFor data p onIdx).map ScheduleSlot.time)
              = (advSlotsFor data p onIdx).map (fun s => s.on)) := by
  have hstrict := sorted_times_strict hnd
  constructor
  · have htr : (simple_greedy_optimise data p).transitions
        = extractTransitions none (greedyFullSchedule data p) := rfl
    refine ⟨?_, ?_, ?_⟩
    · rw [htr, extract_eq_emitOnChange]
    · rw [htr]
      exact extract_chain _
    · rw [htr]
      refine replay_extract (greedyFullSchedule data p) ?_
      rw [greedyFullSchedule_map_time]
      exact hstrict
  · intro tz fuel onIdx h hne
    refine ⟨adv_result_transitions tz fuel data p onIdx h hne,
      (extract_eq_emitOnChange _ _).symm, extract_chain _, ?_⟩
    refine replay_extract _ ?_
    rw [advSlotsFor_map_time]
    exact hstrict

/-- Claim C7 witness: the round-trip property instantiated on the one-slot
series at 06:30 for the greedy strategy, and the transition-list plumbing for
the advanced strategy with offset +60 and fuel 2. -/
theorem claim_C7_witness :
    replayOnSeq false (simple_greedy_optimise [rateAt390] pRetain1).transitions
        ((greedyFullSchedule [rateAt390] pRetain1).map ScheduleSlot.time)
      = (greedyFullSchedule [rateAt390] pRetain1).map (fun s => s.on)
    ∧ (advanced_predictive_optimise 60 2 [rateAt390] pRetain1).map Schedule.transitions
        = some (extractTransitions none (advSlotsFor [rateAt390] pRetain1 {0})) := by
  have h := claim_C7 [rateAt390] pRetain1 (by decide)
  exact ⟨h.1.2.2, (h.2 60 2 {0} (by decide) (by decide)).1⟩

/-! ### Greedy decision lemmas -/

theorem greedyDecide_fst_neg (times : List ℤ) (prices : List ℚ) (p : Params) (i wr : ℕ)
    (hp : prices.getD i 0 < 0) : (greedyDecide times prices p i wr).1 = true := by
  simp only [greedyDecide]
  rw [if_pos hp]

theorem greedyDecide_snd_pos (times : List ℤ) (prices : List ℚ) (p : Params) (i wr : ℕ)
    (hr : 1 ≤ p.retain_slots)
    (hc : hourInWindows p.comfort_hours (utcHour (times.getD i 0)) = true) :
    0 < (greedyDecide times prices p i wr).2 := by
  by_cases hp : prices.getD i 0 < 0
  · simp only [greedyDecide, if_pos hp]
    omega
  · by_cases hw : wr = 0
    · simp only [greedyDecide, if_neg hp, hc, if_true, if_pos hw]
      omega
    · simp only [greedyDecide, if_neg hp, hc, if_true, if_neg hw]
      omega

/-! ### Advanced bookkeeping pass in closed form -/

theorem advBuild_eq_map (times : List ℤ) (prices : List ℚ) (p : Params) (onIdx : ℕ → Bool) :
    ∀ (m s : ℕ),
      advBuild times prices p onIdx (List.range' s m) (advWrBefore onIdx p.retain_slots s)
        = (List.range' s m).map (mkAdvSlot times prices p onIdx) := by
  intro m
  induction m with
  | zero => intro s; rfl
  | succ m ih =>
    intro s
    show advBuild times prices p onIdx (s :: List.range' (s + 1) m)
          (advWrBefore onIdx p.retain_slots s)
        = mkAdvSlot times prices p onIdx s
            :: (List.range' (s + 1) m).map (mkAdvSlot times prices p onIdx)
    simp only [advBuild, mkAdvSlot, List.cons.injEq]
    exact ⟨trivial, ih (s + 1)⟩

theorem advSlotsFor_eq_map (data : List Rate) (p : Params) (onIdx : Finset ℕ) :
    advSlotsFor data p onIdx
      = (List.range (sortRates data).length).map
          (mkAdvSlot ((sortRates data).map Rate.valid_from)
            ((sortRates data).map Rate.value_inc_vat) p (fun i => decide (i ∈ onIdx))) := by
  show advBuild ((sortRates data).map Rate.valid_from) ((sortRates data).map Rate.value_inc_vat)
        p (fun i => decide (i ∈ onIdx)) (List.range (sortRates data).length) 0
      = _
  rw [List.range_eq_range']
  exact advBuild_eq_map _ _ p _ (sortRates data).length 0

theorem advWrBefore_ge (onIdx : ℕ → Bool) (retain : ℕ) (j : ℕ) (hj : onIdx j = true) :
    ∀ d : ℕ, retain - (d + 1) ≤ advWrBefore onIdx retain (j + d + 1) := by
  intro d
  induction d with
  | zero =>
    show retain - 1 ≤ advWrBefore onIdx retain (j + 1)
    have : advWrBefore onIdx retain (j + 1)
        = (if onIdx j then retain else advWrBefore onIdx retain j) - 1 := rfl
    rw [this, if_pos hj]
  | succ d ih =>
    have hstep : advWrBefore onIdx retain (j + (d + 1) + 1)
        = (if onIdx (j + d + 1) then retain else advWrBefore onIdx retain (j + d + 1)) - 1 := by
      show advWrBefore onIdx retain ((j + d + 1) + 1) = _
      rfl
    rw [hstep]
    by_cases h : onIdx (j + d + 1) = true
    · rw [if_pos h]
      omega
    · rw [if_neg (by simpa using h)]
      omega

theorem adv_warm_of_covered (onIdx : ℕ → Bool) (retain : ℕ) (j k : ℕ)
    (hj : onIdx j = true) (hjk : j ≤ k) (hk : k < j + retain) :
    0 < (if onIdx k then retain else advWrBefore onIdx retain k) := by
  rcases Nat.eq_or_lt_of_le hjk with rfl | hlt
  · rw [if_pos hj]
    omega
  · by_cases h : onIdx k = true
    · rw [if_pos h]
      omega
    · rw [if_neg (by simpa using h)]
      obtain ⟨d, rfl⟩ : ∃ d, k = j + d + 1 := ⟨k - j - 1, by omega⟩
      have := advWrBefore_ge onIdx retain j hj d
      omega

/-! ### Coverage loop lemmas -/

theorem advLoop_subset (prices : List ℚ) (n preheat retain : ℕ) :
    ∀ (fuel : ℕ) (onIdx uncovered out : Finset ℕ),
      advLoop prices n preheat retain fuel onIdx uncovered = some out → onIdx ⊆ out := by
  intro fuel
  induction fuel with
  | zero => intro _ _ _ h; cases h
  | succ fuel ih =>
    intro onIdx uncovered out h
    rw [advLoop] at h
    by_cases hne : uncovered.Nonempty
    · rw [dif_pos hne] at h
      exact (Finset.subset_insert _ _).trans (ih _ _ _ h)
    · rw [dif_neg hne] at h
      cases h
      exact Finset.Subset.refl _

theorem coveredSlots_mono {n retain : ℕ} {s t : Finset ℕ} (hst : s ⊆ t) :
    coveredSlots n retain s ⊆ coveredSlots n retain t := by
  intro i hi
  simp only [coveredSlots, Finset.mem_filter, Finset.mem_range] at hi ⊢
  obtain ⟨hin, j, hj, hji⟩ := hi
  exact ⟨hin, j, hst hj, hji⟩

theorem advLoop_covers (prices : List ℚ) (n preheat retain : ℕ) :
    ∀ (fuel : ℕ) (onIdx uncovered out C : Finset ℕ),
      advLoop prices n preheat retain fuel onIdx uncovered = some out →
      C \ coveredSlots n retain onIdx ⊆ uncovered →
      C ⊆ coveredSlots n retain out := by
  intro fuel
  induction fuel with
  | zero => intro _ _ _ _ h; cases h
  | succ fuel ih =>
    intro onIdx uncovered out C h hsub
    rw [advLoop] at h
    by_cases hne : uncovered.Nonempty
    · rw [dif_pos hne] at h
      refine ih _ _ _ C h ?_
      intro x hx
      rw [Finset.mem_sdiff] at hx
      have hx1 : x ∈ uncovered := by
        refine hsub ?_
        rw [Finset.mem_sdiff]
        exact ⟨hx.1, fun hc => hx.2 (coveredSlots_mono (Finset.subset_insert _ _) hc)⟩
      rw [Finset.mem_sdiff]
      exact ⟨hx1, hx.2⟩
    · rw [dif_neg hne] at h
      cases h
      rw [Finset.not_nonempty_iff_eq_empty] at hne
      rw [hne, Finset.subset_empty, Finset.sdiff_eq_empty_iff_subset] at hsub
      exact hsub

/-! ### Claim C6 -/

theorem greedyBuild_neg_on (times : List ℤ) (prices : List ℚ) (p : Params) :
    ∀ (idxs : List ℕ) (wr : ℕ), ∀ s ∈ greedyBuild times prices p idxs wr,
      s.price < 0 → s.on = true := by
  intro idxs
  induction idxs with
  | nil => intro wr s hs; cases hs
  | cons i rest ih =>
    intro wr s hs hneg
    rw [greedyBuild] at hs
    rcases List.mem_cons.mp hs with h1 | h1
    · subst h1
      exact greedyDecide_fst_neg times prices p i wr hneg
    · exact ih _ s h1 hneg

/-- Claim C6 (confirmed): in the greedy strategy every slot with a strictly
negative price is switched ON; in the advanced strategy the same holds for
every terminating run of the coverage loop, since the negative-price indices
are seeded into `on_indices` and the loop only ever adds indices. -/
theorem claim_C6 (data : List Rate) (p : Params) :
    (∀ s ∈ greedyFullSchedule data p, s.price < 0 → s.on = true)
    ∧ ∀ (tz : ℤ) (fuel : ℕ) (onIdx : Finset ℕ),
        advOnIndices tz fuel (sortRates data) p = some onIdx →
        ∀ s ∈ advSlotsFor data p onIdx, s.price < 0 → s.on = true := by
  constructor
  · intro s hs
    exact greedyBuild_neg_on _ _ p _ 0 s hs
  · intro tz fuel onIdx h s hs hneg
    rw [advSlotsFor_eq_map] at hs
    obtain ⟨k, hk, rfl⟩ := List.mem_map.mp hs
    rw [List.mem_range] at hk
    have hsub : negPriceSet ((sortRates data).map Rate.value_inc_vat) ⊆ onIdx :=
      advLoop_subset _ _ _ _ fuel _ _ onIdx h
    have hneg2 : k ∈ negPriceSet ((sortRates data).map Rate.value_inc_vat) := by
      rw [negPriceSet, Finset.mem_filter, Finset.mem_range]
      exact ⟨by simpa using hk, hneg⟩
    have hmem : k ∈ onIdx := hsub hneg2
    show decide (k ∈ onIdx) = true
    simpa using hmem

/-- Claim C6 witness: a single negatively priced slot is ON under both
strategies (advanced run with offset 0 and fuel 1, whose loop exits at once
because no comfort slot exists at 03:00). -/
theorem claim_C6_witness :
    ((greedyFullSchedule [rateNeg] pRetain1).get ⟨0, by decide⟩).on = true
    ∧ ((advSlotsFor [rateNeg] pRetain1 {0}).get ⟨0, by decide⟩).on = true := by
  have h := claim_C6 [rateNeg] pRetain1
  constructor
  · exact h.1 _ (List.get_mem _ _ _) (by decide)
  · exact h.2 0 1 {0} (by decide) _ (List.get_mem _ _ _) (by decide)

/-! ### Claim C3 -/

theorem greedyBuild_comfort_warm (times : List ℤ) (prices : List ℚ) (p : Params)
    (hr : 1 ≤ p.retain_slots) :
    ∀ (idxs : List ℕ) (wr : ℕ), ∀ s ∈ greedyBuild times prices p idxs wr,
      hourInWindows p.comfort_hours (utcHour s.time) = true → s.warm = true := by
  intro idxs
  induction idxs with
  | nil => intro wr s hs; cases hs
  | cons i rest ih =>
    intro wr s hs hc
    rw [greedyBuild] at hs
    rcases List.mem_cons.mp hs with h1 | h1
    · subst h1
      show decide (0 < (greedyDecide times prices p i wr).2) = true
      simpa using greedyDecide_snd_pos times prices p i wr hr hc
    · exact ih _ s h1 hc

/-- Claim C3 counterexample: with `retain_slots = 0`, the single 07:00 comfort
slot is switched ON by the greedy strategy, yet its `warm` flag is `false`
(`warm_remaining` is reset to 0, and `warm = warm_remaining > 0`), refuting
"every comfort-window slot has warm == true for every retain_slots >= 0". -/
theorem claim_C3_counterexample :
    hourInWindows pRetain0.comfort_hours
        (utcHour (((greedyFullSchedule [rateAt420] pRetain0).get ⟨0, by decide⟩).time)) = true
    ∧ ((greedyFullSchedule [rateAt420] pRetain0).get ⟨0, by decide⟩).on = true
    ∧ ((greedyFullSchedule [rateAt420] pRetain0).get ⟨0, by decide⟩).warm = false := by
  decide

/-- Claim C3 (amended): when `retain_slots >= 1`, every comfort slot of the
greedy strategy is warm; and in the advanced strategy, whenever the coverage
loop terminates, every comfort slot (by local hour) is warm.  The
counterexample shows the original claim fails at `retain_slots = 0`, where the
greedy `warm` flag is false even on an ON comfort slot and the advanced loop
does not terminate at all. -/
theorem claim_C3 (data : List Rate) (p : Params) (hr : 1 ≤ p.retain_slots) :
    (∀ s ∈ greedyFullSchedule data p,
        hourInWindows p.comfort_hours (utcHour s.time) = true → s.warm = true)
    ∧ ∀ (tz : ℤ) (fuel : ℕ) (onIdx : Finset ℕ),
        advOnIndices tz fuel (sortRates data) p = some onIdx →
        ∀ (k : ℕ) (hk : k < (advSlotsFor data p onIdx).length),
          hourInWindows p.comfort_hours
              (localHour tz (((advSlotsFor data p onIdx).get ⟨k, hk⟩).time)) = true →
          ((advSlotsFor data p onIdx).get ⟨k, hk⟩).warm = true := by
  constructor
  · intro s hs hc
    exact greedyBuild_comfort_warm _ _ p hr _ 0 s hs hc
  · intro tz fuel onIdx h k hk hc
    have hlen : (advSlotsFor data p onIdx).length = (sortRates data).length := by
      rw [advSlotsFor_eq_map]
      simp
    have hkn : k < (sortRates data).length := hlen ▸ hk
    have hget : (advSlotsFor data p onIdx).get ⟨k, hk⟩
        = mkAdvSlot ((sortRates data).map Rate.valid_from)
            ((sortRates data).map Rate.value_inc_vat) p (fun i => decide (i ∈ onIdx)) k := by
      rw [List.get_eq_getElem, List.getElem_of_eq (advSlotsFor_eq_map data p onIdx),
        List.getElem_map, List.getElem_range]
    rw [hget] at hc ⊢
    have hcomf : k ∈ advComfortSet tz ((sortRates data).map Rate.valid_from) p := by
      rw [advComfortSet, Finset.mem_filter, Finset.mem_range]
      exact ⟨by simpa using hkn, hc⟩
    have h2 : advLoop ((sortRates data).map Rate.value_inc_vat) (sortRates data).length
        p.preheat_slots p.retain_slots fuel
        (negPriceSet ((sortRates data).map Rate.value_inc_vat))
        (advComfortSet tz ((sortRates data).map Rate.valid_from) p) = some onIdx := h
    have hcov := advLoop_covers ((sortRates data).map Rate.value_inc_vat)
      (sortRates data).length p.preheat_slots p.retain_slots fuel _ _ onIdx
      (advComfortSet tz ((sortRates data).map Rate.valid_from) p) h2
      Finset.sdiff_subset
    have hk2 := hcov hcomf
    rw [coveredSlots, Finset.mem_filter] at hk2
    obtain ⟨-, j, hj, hjk, hkj⟩ := hk2
    have hwarm := adv_warm_of_covered (fun i => decide (i ∈ onIdx)) p.retain_slots j k
      (by simpa using hj) hjk hkj
    simpa [mkAdvSlot] using hwarm

/-- Claim C3 witness: with `retain_slots = 1` the 07:00 comfort slot is warm
under the greedy strategy, and under the advanced strategy with offset 0 and
fuel 2 (whose loop terminates with `on_indices = {0}`). -/
theorem claim_C3_witness :
    ((greedyFullSchedule [rateAt420] pRetain1).get ⟨0, by decide⟩).warm = true
    ∧ ((advSlotsFor [rateAt420] pRetain1 {0}).get ⟨0, by decide⟩).warm = true := by
  have h := claim_C3 [rateAt420] pRetain1 (by decide)
  constructor
  · exact h.1 _ (List.get_mem _ _ _) (by decide)
  · exact h.2 0 2 {0} (by decide) 0 (by decide) (by decide)

/-! ### Claim C5 -/

theorem countP_range_getD {α : Type} (l : List α) (d : α) (f : α → Bool) :
    (List.range l.length).countP (fun i => f (l.getD i d)) = l.countP f := by
  conv_rhs => rw [← map_getD_range l d]
  rw [List.countP_map]
  rfl

/-- Claim C5 counterexample: the slot at 06:30 UTC has local hour 7 when the
offset is +60, inside the comfort window `(7, 9)` — yet the greedy strategy
counts zero comfort slots (it classifies by the UTC hour, 6), while the
advanced strategy counts one.  This refutes the claim that BOTH strategies
classify by local hour. -/
theorem claim_C5_counterexample :
    hourInWindows pRetain1.comfort_hours (localHour 60 rateAt390.valid_from) = true
    ∧ (simple_greedy_optimise [rateAt390] pRetain1).summary.map Summary.comfort_slots
        = some 0
    ∧ (advanced_predictive_optimise 60 2 [rateAt390] pRetain1).map
          (fun sched => sched.summary.map Summary.comfort_slots)
        = some (some 1) := by
  decide

/-- Claim C5 (amended): the two strategies do NOT share one classification.
The greedy strategy classifies a slot as comfort iff the UTC hour of its
`valid_from` satisfies `start <= h < end` for some configured window, while
the advanced strategy classifies by the LOCAL hour; the summaries' comfort
counts below witness the classification each strategy actually uses. -/
theorem claim_C5 (data : List Rate) (p : Params) :
    (simple_greedy_optimise data p).summary.map Summary.comfort_slots
      = some ((sortRates data).countP
          (fun r => hourInWindows p.comfort_hours (utcHour r.valid_from)))
    ∧ ∀ (tz : ℤ) (fuel : ℕ) (onIdx : Finset ℕ),
        advOnIndices tz fuel (sortRates data) p = some onIdx → data ≠ [] →
        (advanced_predictive_optimise tz fuel data p).map
            (fun sched => sched.summary.map Summary.comfort_slots)
          = some (some ((sortRates data).countP
              (fun r => hourInWindows p.comfort_hours (localHour tz r.valid_from)))) := by
  constructor
  · show some ((List.range (sortRates data).length).countP
        (fun i => hourInWindows p.comfort_hours
          (utcHour (((sortRates data).map Rate.valid_from).getD i 0)))) = _
    refine congrArg some ?_
    rw [show (sortRates data).length = ((sortRates data).map Rate.valid_from).length from
      (List.length_map _ _).symm,
      countP_range_getD ((sortRates data).map Rate.valid_from) 0
        (fun t => hourInWindows p.comfort_hours (utcHour t)),
      List.countP_map]
    rfl
  · intro tz fuel onIdx h hne
    have he : data.isEmpty = false := by
      cases data with
      | nil => exact absurd rfl hne
      | cons a l => rfl
    simp only [advanced_predictive_optimise, advPipeline, he, Bool.false_eq_true, if_false, h,
      Option.map_map, Option.map_some]
    show some (some ((List.range (sortRates data).length).countP
        (fun i => hourInWindows p.comfort_hours
          (localHour tz (((sortRates data).map Rate.valid_from).getD i 0))))) = _
    refine congrArg some (congrArg some ?_)
    rw [show (sortRates data).length = ((sortRates data).map Rate.valid_from).length from
      (List.length_map _ _).symm,
      countP_range_getD ((sortRates data).map Rate.valid_from) 0
        (fun t => hourInWindows p.comfort_hours (localHour tz t)),
      List.countP_map]
    rfl

/-- Claim C5 witness: the advanced strategy's comfort count instantiated at
the 06:30 slot with offset +60 and fuel 2. -/
theorem claim_C5_witness :
    (advanced_predictive_optimise 60 2 [rateAt390] pRetain1).map
        (fun sched => sched.summary.map Summary.comfort_slots)
      = some (some ((sortRates [rateAt390]).countP
          (fun r => hourInWindows pRetain1.comfort_hours (localHour 60 r.valid_from)))) :=
  (claim_C5 [rateAt390] pRetain1).2 60 2 {0} (by decide) (by decide)

/-! ### Claim C9 -/

theorem seenPlus_mem (x : ℤ) : ∀ (l : List Rate) (seen : List ℤ),
    x ∈ seenPlus seen l ↔ x ∈ seen ∨ x ∈ l.map Rate.valid_from := by
  intro l
  induction l with
  | nil => intro seen; simp [seenPlus]
  | cons r rest ih =>
    intro seen
    rw [seenPlus]
    by_cases h : r.valid_from ∈ seen
    · rw [if_pos h, ih]
      simp only [List.map_cons, List.mem_cons]
      constructor
      · rintro (hx | hx)
        · exact Or.inl hx
        · exact Or.inr (Or.inr hx)
      · rintro (hx | hx | hx)
        · exact Or.inl hx
        · exact Or.inl (hx ▸ h)
        · exact Or.inr hx
    · rw [if_neg h, ih]
      simp only [List.mem_cons, List.map_cons]
      tauto

theorem dedup_eq_filter : ∀ (l : List Rate) (seen : List ℤ),
    (l.map Rate.valid_from).Nodup →
    dedupByValidFrom seen l = l.filter (fun r => !(decide (r.valid_from ∈ seen))) := by
  intro l
  induction l with
  | nil => intro seen _; rfl
  | cons r rest ih =>
    intro seen hnd
    rw [List.map_cons, List.nodup_cons] at hnd
    rw [dedupByValidFrom, List.filter_cons]
    by_cases h : r.valid_from ∈ seen
    · rw [if_pos h, ih seen hnd.2]
      simp [h]
    · rw [if_neg h, ih (r.valid_from :: seen) hnd.2]
      have hcong : rest.filter (fun x => !(decide (x.valid_from ∈ r.valid_from :: seen)))
          = rest.filter (fun x => !(decide (x.valid_from ∈ seen))) := by
        refine List.filter_congr ?_
        intro x hx
        have hne : x.valid_from ≠ r.valid_from :=
          fun he => hnd.1 (he ▸ List.mem_map_of_mem Rate.valid_from hx)
        simp [List.mem_cons, hne]
      rw [hcong]
      simp [h]

theorem dedup_append : ∀ (l₁ l₂ : List Rate) (seen : List ℤ),
    dedupByValidFrom seen (l₁ ++ l₂)
      = dedupByValidFrom seen l₁ ++ dedupByValidFrom (seenPlus seen l₁) l₂ := by
  intro l₁
  induction l₁ with
  | nil => intro l₂ seen; rfl
  | cons r rest ih =>
    intro l₂ seen
    rw [List.cons_append, dedupByValidFrom, dedupByValidFrom, seenPlus]
    by_cases h : r.valid_from ∈ seen
    · rw [if_pos h, if_pos h, if_pos h, ih]
    · rw [if_neg h, if_neg h, if_neg h, List.cons_append, ih]

/-- Claim C9 (confirmed): merging a sorted, duplicate-free series with itself
returns it unchanged, for every value of `now`: the existing copy is filtered
by the 48 h window, the de-duplication then keeps the filtered entries plus
exactly the dropped ones from the second copy, and re-sorting restores `S`. -/
theorem claim_C9 (S : List Rate) (hs : List.Sorted rateLe S)
    (hnd : (S.map Rate.valid_from).Nodup) (now : ℤ) :
    merge_price_data now S S = S := by
  set pb := fun r : Rate => decide (now - 2880 ≤ r.valid_from) with hpb
  have hfil : filterExisting now S = S.filter pb := rfl
  have hnd_fil : ((S.filter pb).map Rate.valid_from).Nodup :=
    hnd.sublist ((List.filter_sublist S).map Rate.valid_from)
  have hded : dedupByValidFrom [] (S.filter pb ++ S)
      = S.filter pb ++ S.filter (fun r => !(pb r)) := by
    rw [dedup_append]
    congr 1
    · rw [dedup_eq_filter _ _ hnd_fil]
      simp
    · rw [dedup_eq_filter _ _ hnd]
      refine List.filter_congr ?_
      intro x hx
      by_cases hpx : pb x = true
      · have hmem : x.valid_from ∈ seenPlus [] (S.filter pb) := by
          rw [seenPlus_mem]
          exact Or.inr (List.mem_map_of_mem Rate.valid_from (List.mem_filter.mpr ⟨hx, hpx⟩))
        simp [hmem, hpx]
      · have hmem : x.valid_from ∉ seenPlus [] (S.filter pb) := by
          rw [seenPlus_mem]
          rintro (h0 | h0)
          · cases h0
          · obtain ⟨y, hy, hyx⟩ := List.mem_map.mp h0
            have hy2 := List.mem_filter.mp hy
            have : y = x := List.inj_on_of_nodup_map hnd hy2.1 hx hyx
            exact hpx (this ▸ hy2.2)
        simp [hmem, hpx]
  have hperm : (S.filter pb ++ S.filter (fun r => !(pb r))).Perm S :=
    List.filter_append_perm pb S
  show sortRates (dedupByValidFrom [] (filterExisting now S ++ S)) = S
  rw [hfil, hded]
  exact eq_of_perm_sorted_nodup ((sortRates_perm _).trans hperm) (sortRates_sorted _) hs
    (nodup_keys_of_perm ((sortRates_perm _).trans hperm).symm hnd)

/-- Claim C9 witness: self-merge of a concrete sorted two-slot series at
`now = 500` returns it unchanged. -/
theorem claim_C9_witness :
    List.Sorted rateLe [rateAt180, rateAt420]
    ∧ merge_price_data 500 [rateAt180, rateAt420] [rateAt180, rateAt420]
        = [rateAt180, rateAt420] :=
  ⟨by decide, claim_C9 [rateAt180, rateAt420] (by decide) (by decide) 500⟩

/-! ### Claim C10 -/

theorem greedy_depends_on_sort {l₁ l₂ : List Rate} (p : Params)
    (h : sortRates l₁ = sortRates l₂) :
    simple_greedy_optimise l₁ p = simple_greedy_optimise l₂ p := by
  simp only [simple_greedy_optimise, greedyFullSchedule, h]

theorem advanced_depends_on_sort {l₁ l₂ : List Rate} (p : Params) (tz : ℤ) (fuel : ℕ)
    (h : sortRates l₁ = sortRates l₂) (hem : l₁.isEmpty = l₂.isEmpty) :
    advanced_predictive_optimise tz fuel l₁ p = advanced_predictive_optimise tz fuel l₂ p := by
  simp only [advanced_predictive_optimise, advPipeline, h, hem]

/-- Claim C10 (confirmed): both strategies sort the input by `valid_from`
first, so for inputs with pairwise-distinct `valid_from` values any
permutation of the rate list yields an identical result — transitions and
summary alike. -/
theorem claim_C10 (l₁ l₂ : List Rate) (p : Params) (hperm : l₁.Perm l₂)
    (hnd : (l₁.map Rate.valid_from).Nodup) :
    simple_greedy_optimise l₁ p = simple_greedy_optimise l₂ p
    ∧ ∀ (tz : ℤ) (fuel : ℕ),
        advanced_predictive_optimise tz fuel l₁ p
          = advanced_predictive_optimise tz fuel l₂ p := by
  have hs := sortRates_eq_of_perm hperm hnd
  have hem : l₁.isEmpty = l₂.isEmpty := by
    cases l₁ with
    | nil =>
      cases l₂ with
      | nil => rfl
      | cons b t => have := hperm.length_eq; simp at this
    | cons a t =>
      cases l₂ with
      | nil => have := hperm.length_eq; simp at this
      | cons b t2 => rfl
  exact ⟨greedy_depends_on_sort p hs,
    fun tz fuel => advanced_depends_on_sort p tz fuel hs hem⟩

/-- Claim C10 witness: swapping a concrete two-slot series leaves both
optimiser results unchanged (advanced run with offset 0 and fuel 3). -/
theorem claim_C10_witness :
    simple_greedy_optimise [rateAt180, rateAt420] pRetain1
      = simple_greedy_optimise [rateAt420, rateAt180] pRetain1
    ∧ advanced_predictive_optimise 0 3 [rateAt180, rateAt420] pRetain1
      = advanced_predictive_optimise 0 3 [rateAt420, rateAt180] pRetain1 := by
  have h := claim_C10 [rateAt180, rateAt420] [rateAt420, rateAt180] pRetain1
    (by decide) (by decide)
  exact ⟨h.1, h.2 0 3⟩

end EnergyController
